import Mathlib

/-!
Verification of the curved-MPR engine duplicated in `AortaCurvedMPR.py` and
`muscleCurvedMPR.py` (class `InteractiveCurvedMPR`).

Shallow embedding conventions:
* numpy float64 arithmetic is modelled over `ℝ`;
* a numpy length-3 array is a `Vec3`;
* Python operations that can raise (out-of-range indexing, numpy reductions
  over empty arrays) are modelled with `Option`: `none` is an exception;
* `scipy.interpolate.splprep` / `splev` are third-party code not in this
  repository; they are abstracted as a fitting oracle (`SplineFit`), with
  the properties the spec ascribes to them stated as explicit hypotheses.
-/

namespace CurvedMPR

noncomputable section

/-- A 3D point / vector: model of a numpy array of shape (3,). -/
structure Vec3 where
  x : ℝ
  y : ℝ
  z : ℝ

namespace Vec3

@[ext] theorem ext' {a b : Vec3} (hx : a.x = b.x) (hy : a.y = b.y) (hz : a.z = b.z) :
    a = b := by
  cases a; cases b; simp_all

instance : Add Vec3 := ⟨fun a b => ⟨a.x + b.x, a.y + b.y, a.z + b.z⟩⟩

instance : Sub Vec3 := ⟨fun a b => ⟨a.x - b.x, a.y - b.y, a.z - b.z⟩⟩

instance : SMul ℝ Vec3 := ⟨fun c v => ⟨c * v.x, c * v.y, c * v.z⟩⟩

instance : Zero Vec3 := ⟨⟨0, 0, 0⟩⟩

@[simp] theorem add_def (a b : Vec3) : a + b = ⟨a.x + b.x, a.y + b.y, a.z + b.z⟩ := rfl

@[simp] theorem sub_def (a b : Vec3) : a - b = ⟨a.x - b.x, a.y - b.y, a.z - b.z⟩ := rfl

@[simp] theorem smul_def (c : ℝ) (v : Vec3) : c • v = ⟨c * v.x, c * v.y, c * v.z⟩ := rfl

@[simp] theorem zero_def : (0 : Vec3) = ⟨0, 0, 0⟩ := rfl

/-- Dot product. -/
def dot (a b : Vec3) : ℝ := a.x * b.x + a.y * b.y + a.z * b.z

/-- Cross product (`np.cross`). -/
def cross (a b : Vec3) : Vec3 :=
  ⟨a.y * b.z - a.z * b.y, a.z * b.x - a.x * b.z, a.x * b.y - a.y * b.x⟩

/-- Euclidean norm (`np.linalg.norm`). -/
def norm (v : Vec3) : ℝ := Real.sqrt (v.x ^ 2 + v.y ^ 2 + v.z ^ 2)

theorem norm_nonneg (v : Vec3) : 0 ≤ v.norm := Real.sqrt_nonneg _

theorem sq_norm (v : Vec3) : v.norm ^ 2 = v.x ^ 2 + v.y ^ 2 + v.z ^ 2 :=
  Real.sq_sqrt (by positivity)

theorem norm_smul (c : ℝ) (v : Vec3) : (c • v).norm = |c| * v.norm := by
  simp only [norm, smul_def]
  rw [show (c * v.x) ^ 2 + (c * v.y) ^ 2 + (c * v.z) ^ 2
        = c ^ 2 * (v.x ^ 2 + v.y ^ 2 + v.z ^ 2) by ring,
    Real.sqrt_mul (by positivity), Real.sqrt_sq_eq_abs]

theorem norm_eq_zero_iff (v : Vec3) : v.norm = 0 ↔ v = ⟨0, 0, 0⟩ := by
  constructor
  · intro h
    have h2 : v.x ^ 2 + v.y ^ 2 + v.z ^ 2 = 0 := by
      have := sq_norm v
      rw [h] at this
      simpa using this.symm
    have hx : v.x = 0 := by nlinarith [sq_nonneg v.x, sq_nonneg v.y, sq_nonneg v.z]
    have hy : v.y = 0 := by nlinarith [sq_nonneg v.x, sq_nonneg v.y, sq_nonneg v.z]
    have hz : v.z = 0 := by nlinarith [sq_nonneg v.x, sq_nonneg v.y, sq_nonneg v.z]
    exact ext' hx hy hz
  · rintro rfl
    simp [norm]

end Vec3

/-- The epsilon the source adds to denominators before dividing (`1e-10`). -/
def eps : ℝ := 1e-10

theorem eps_pos : 0 < eps := by norm_num [eps]

/-- Epsilon-guarded normalization, `v / (np.linalg.norm(v) + 1e-10)`. -/
def normEps (v : Vec3) : Vec3 := (1 / (v.norm + eps)) • v

theorem norm_normEps (v : Vec3) : (normEps v).norm = v.norm / (v.norm + eps) := by
  have hpos : 0 < v.norm + eps := by
    have := v.norm_nonneg
    have := eps_pos
    linarith
  rw [normEps, Vec3.norm_smul, abs_of_pos (by positivity)]
  field_simp

/-- The unnormalized perpendicular picked by the 2-point branch of
`create_curve`: `(-direction[1], direction[0], 0)` when
`abs(direction[0]) > abs(direction[2])`, else `(0, -direction[2], direction[1])`. -/
def perpRaw (direction : Vec3) : Vec3 :=
  if |direction.x| > |direction.z| then ⟨-direction.y, direction.x, 0⟩
  else ⟨0, -direction.z, direction.y⟩

/-- The five control points built by the 2-point branch of `create_curve` and
`create_curve_high_res` (`AortaCurvedMPR.py` lines 253-272, `muscleCurvedMPR.py`
lines 353-371). -/
def control_points (start end_ : Vec3) (curve_factor : ℝ) : List Vec3 :=
  let mid : Vec3 := (1 / 2 : ℝ) • (start + end_)
  let direction : Vec3 := end_ - start
  let perpendicular : Vec3 := normEps (perpRaw direction)
  [ start,
    start + (0.25 : ℝ) • direction + (direction.norm * curve_factor * 0.5) • perpendicular,
    mid + (direction.norm * curve_factor) • perpendicular,
    end_ - (0.25 : ℝ) • direction + (direction.norm * curve_factor * 0.5) • perpendicular,
    end_ ]

/-- `np.linspace a b n` evaluated at index `j` (linear spacing with both
endpoints included; numpy returns `[a]` for `n = 1`). -/
def linspace (a b : ℝ) (n : ℕ) (j : ℕ) : ℝ :=
  if n ≤ 1 then a else a + (b - a) * j / ((n : ℝ) - 1)

/-- Modelled from the spec: `scipy.interpolate.splprep`/`splev` are third-party
library calls, not code of this repository.  The pair is abstracted as a
fitting oracle taking the control points and returning either an evaluator for
the fitted parametric spline on the unit interval, or `none` exactly when the
Python call raises (caught by the `except:` branch). -/
structure SplineFit where
  fit : List Vec3 → Option (ℝ → Vec3)

/-- `InteractiveCurvedMPR.create_curve` and `create_curve_high_res`
(`AortaCurvedMPR.py` lines 246-322): the two methods are identical except for
the sample count (100 vs `self.mpr_points`), here the parameter `samples`.
With fewer than 2 points the source returns `np.array([])`; on spline failure
it returns `points_arr`, the raw input array. -/
def create_curve (S : SplineFit) (points : List Vec3) (curve_factor : ℝ)
    (samples : ℕ) : List Vec3 :=
  if points.length < 2 then []
  else
    let cps := if points.length = 2
      then control_points (points.getD 0 0) (points.getD 1 0) curve_factor
      else points
    match S.fit cps with
    | some f => (List.range samples).map fun i => f (linspace 0 1 samples i)
    | none => points

/-- The five control points exactly as the specification words them (spec §4.1):
`start`, `start + 0.25·direction + 0.5·curvature·|direction|·perp`,
`mid + curvature·|direction|·perp`,
`end − 0.25·direction + 0.5·curvature·|direction|·perp`, `end`, where `perp`
is `(−direction.y, direction.x, 0)` if `|direction.x| > |direction.z|` else
`(0, −direction.z, direction.y)`, normalized with a small epsilon added to the
denominator. -/
def spec_control_points (start end_ : Vec3) (curvature : ℝ) : List Vec3 :=
  let direction : Vec3 := end_ - start
  let mid : Vec3 := (1 / 2 : ℝ) • (start + end_)
  let perp0 : Vec3 := if |direction.x| > |direction.z|
    then ⟨-direction.y, direction.x, 0⟩ else ⟨0, -direction.z, direction.y⟩
  let perp : Vec3 := (1 / (perp0.norm + eps)) • perp0
  [ start,
    start + (0.25 : ℝ) • direction + (0.5 * curvature * direction.norm) • perp,
    mid + (curvature * direction.norm) • perp,
    end_ - (0.25 : ℝ) • direction + (0.5 * curvature * direction.norm) • perp,
    end_ ]

/-- C1: for every pair of distinct 3D points and every curvature in [0,1], the
2-point branch of `create_curve`/`create_curve_high_res` constructs exactly the
5 control points listed in the claim: start; start + 0.25·direction +
0.5·curvature·|direction|·perp; mid + curvature·|direction|·perp; end −
0.25·direction + 0.5·curvature·|direction|·perp; end. -/
theorem c1_two_point_control_points (start end_ : Vec3) (curvature : ℝ)
    (hne : start ≠ end_) (h0 : 0 ≤ curvature) (h1 : curvature ≤ 1) :
    control_points start end_ curvature = spec_control_points start end_ curvature := by
  unfold control_points spec_control_points normEps perpRaw
  by_cases h : |(end_ - start).x| > |(end_ - start).z|
  · simp only [if_pos h, Vec3.smul_def, Vec3.add_def, Vec3.sub_def,
      List.cons.injEq, and_true, true_and]
    refine ⟨?_, ?_, ?_⟩ <;> apply Vec3.ext' <;> dsimp only <;> ring
  · simp only [if_neg h, Vec3.smul_def, Vec3.add_def, Vec3.sub_def,
      List.cons.injEq, and_true, true_and]
    refine ⟨?_, ?_, ?_⟩ <;> apply Vec3.ext' <;> dsimp only <;> ring

/-- C1 witness: the theorem applied at start = (0,0,0), end = (10,0,0),
curvature = 0.3. -/
theorem c1_witness :
    control_points ⟨0, 0, 0⟩ ⟨10, 0, 0⟩ 0.3 = spec_control_points ⟨0, 0, 0⟩ ⟨10, 0, 0⟩ 0.3 :=
  c1_two_point_control_points ⟨0, 0, 0⟩ ⟨10, 0, 0⟩ 0.3
    (by intro hcontra; have := congrArg Vec3.x hcontra; norm_num at this)
    (by norm_num) (by norm_num)

/-- C6 counterexample: on a single input point the code returns an empty
array, not the raw input points unchanged. -/
theorem c6_counterexample :
    create_curve ⟨fun _ => none⟩ [⟨0, 0, 0⟩] 0.3 100 = [] ∧
    create_curve ⟨fun _ => none⟩ [⟨0, 0, 0⟩] 0.3 100 ≠ [⟨0, 0, 0⟩] := by
  constructor
  · simp [create_curve]
  · simp [create_curve]

/-- C6 (amended): for every input of fewer than 2 points and every curvature
and sample count, `create_curve`/`create_curve_high_res` returns the empty
array (which coincides with the input only in the 0-point case) and raises no
exception. -/
theorem c6_under_two_points_empty (S : SplineFit) (points : List Vec3)
    (curve_factor : ℝ) (samples : ℕ) (h : points.length < 2) :
    create_curve S points curve_factor samples = [] := by
  simp [create_curve, if_pos h]

/-- C6 witness: the amended theorem applied to a one-point input. -/
theorem c6_witness :
    ([⟨0, 0, 0⟩] : List Vec3).length < 2 ∧
    create_curve ⟨fun _ => none⟩ [⟨0, 0, 0⟩] 0.3 100 = [] :=
  ⟨by norm_num, c6_under_two_points_empty ⟨fun _ => none⟩ [⟨0, 0, 0⟩] 0.3 100 (by norm_num)⟩

/-- C9 counterexample: with a failing spline fit on 2 input points, the code
returns the 2 raw input points, not the 5 constructed bulge control points. -/
theorem c9_counterexample :
    create_curve ⟨fun _ => none⟩ [⟨0, 0, 0⟩, ⟨1, 0, 0⟩] 1 100 = [⟨0, 0, 0⟩, ⟨1, 0, 0⟩] ∧
    create_curve ⟨fun _ => none⟩ [⟨0, 0, 0⟩, ⟨1, 0, 0⟩] 1 100 ≠
      control_points ⟨0, 0, 0⟩ ⟨1, 0, 0⟩ 1 := by
  constructor
  · simp [create_curve]
  · intro hcontra
    have hlen := congrArg List.length hcontra
    simp [create_curve, control_points] at hlen

/-- C9 (amended): when spline fitting fails, `create_curve` falls back to
returning the raw input points (the landmarks) as the curve in every case —
these coincide with the control points only when at least 3 points are given. -/
theorem c9_fallback_returns_input (S : SplineFit) (points : List Vec3)
    (curve_factor : ℝ) (samples : ℕ) (h2 : 2 ≤ points.length)
    (hfail : S.fit (if points.length = 2
      then control_points (points.getD 0 0) (points.getD 1 0) curve_factor
      else points) = none) :
    create_curve S points curve_factor samples = points := by
  rw [create_curve, if_neg (Nat.not_lt.mpr h2)]
  simp only [hfail]

/-- C9 witness: the amended theorem applied to a failing fit on two points. -/
theorem c9_witness :
    2 ≤ ([⟨0, 0, 0⟩, ⟨1, 0, 0⟩] : List Vec3).length ∧
    create_curve ⟨fun _ => none⟩ [⟨0, 0, 0⟩, ⟨1, 0, 0⟩] 1 100 = [⟨0, 0, 0⟩, ⟨1, 0, 0⟩] :=
  ⟨by norm_num,
    c9_fallback_returns_input ⟨fun _ => none⟩ [⟨0, 0, 0⟩, ⟨1, 0, 0⟩] 1 100
      (by norm_num) rfl⟩

/-- Modelled from the spec: `splprep` with `s=0` fits an *interpolating*
spline ("interpolate exactly, not approximate") whose parameter runs over the
unit interval, so evaluating at parameter 0 yields the first control point and
at parameter 1 the last control point. -/
def FitsEndpoints (S : SplineFit) : Prop :=
  ∀ cps f, S.fit cps = some f → ∀ a b, cps.head? = some a → cps.getLast? = some b →
    f 0 = a ∧ f 1 = b

theorem range_map_head (g : ℕ → Vec3) (m : ℕ) :
    ((List.range (m + 2)).map g).head? = some (g 0) := by
  rw [show m + 2 = (m + 1) + 1 by ring, List.range_succ_eq_map]
  simp

theorem range_map_getLast (g : ℕ → Vec3) (m : ℕ) :
    ((List.range (m + 2)).map g).getLast? = some (g (m + 1)) := by
  rw [show m + 2 = (m + 1) + 1 by ring, List.range_succ, List.map_append]
  simp

theorem linspace_zero (n : ℕ) : linspace 0 1 n 0 = 0 := by
  unfold linspace
  split <;> simp

theorem linspace_last (m : ℕ) : linspace 0 1 (m + 2) (m + 1) = 1 := by
  unfold linspace
  rw [if_neg (by omega)]
  push_cast
  rw [show (m : ℝ) + 2 - 1 = (m : ℝ) + 1 by ring]
  have h2 : (m : ℝ) + 1 ≠ 0 := by positivity
  field_simp

/-- C4: for every list of at least 2 landmark points, every curvature and every
sample count of at least 2, the first and last sample of the curve returned by
`create_curve`/`create_curve_high_res` equal the first and last input landmark,
in the 2-point bulge case, the N-point spline case and the fitting-failure
fallback alike (exact over the real model of float arithmetic). -/
theorem eval_branch_ends (S : SplineFit) (hS : FitsEndpoints S)
    (cps fallback : List Vec3) (a b : Vec3)
    (ha : cps.head? = some a) (hb : cps.getLast? = some b)
    (hfa : fallback.head? = some a) (hfb : fallback.getLast? = some b) (m : ℕ) :
    (match S.fit cps with
      | some f => (List.range (m + 2)).map fun i => f (linspace 0 1 (m + 2) i)
      | none => fallback).head? = some a ∧
    (match S.fit cps with
      | some f => (List.range (m + 2)).map fun i => f (linspace 0 1 (m + 2) i)
      | none => fallback).getLast? = some b := by
  cases hfit : S.fit cps with
  | none => exact ⟨hfa, hfb⟩
  | some f =>
    obtain ⟨h0, h1⟩ := hS cps f hfit a b ha hb
    refine ⟨?_, ?_⟩
    · rw [range_map_head, linspace_zero, h0]
    · rw [range_map_getLast, linspace_last, h1]

theorem c4_endpoint_fidelity (S : SplineFit) (hS : FitsEndpoints S)
    (points : List Vec3) (curve_factor : ℝ) (samples : ℕ)
    (h2 : 2 ≤ points.length) (hn : 2 ≤ samples) :
    (create_curve S points curve_factor samples).head? = points.head? ∧
    (create_curve S points curve_factor samples).getLast? = points.getLast? := by
  obtain ⟨m, rfl⟩ : ∃ m, samples = m + 2 := ⟨samples - 2, by omega⟩
  obtain ⟨a, ha⟩ : ∃ a, points.head? = some a := by
    cases points with
    | nil => simp at h2
    | cons x t => exact ⟨x, rfl⟩
  obtain ⟨b, hb⟩ : ∃ b, points.getLast? = some b := by
    have hne : points ≠ [] := by intro h; subst h; simp at h2
    exact Option.isSome_iff_exists.mp (List.getLast?_isSome.mpr hne)
  rw [ha, hb, create_curve, if_neg (Nat.not_lt.mpr h2)]
  by_cases hlen2 : points.length = 2
  · obtain ⟨p, q, rfl⟩ := List.length_eq_two.mp hlen2
    simp only [if_pos hlen2]
    have hap : a = p := by
      simp only [List.head?_cons, Option.some.injEq] at ha
      exact ha.symm
    have hbq : b = q := by
      have hq : ([p, q] : List Vec3).getLast? = some q := rfl
      rw [hq, Option.some.injEq] at hb
      exact hb.symm
    subst hap; subst hbq
    exact eval_branch_ends S hS
      (control_points (([a, b] : List Vec3).getD 0 0) (([a, b] : List Vec3).getD 1 0)
        curve_factor)
      [a, b] a b (by simp [control_points]) (by simp [control_points]) rfl rfl m
  · simp only [if_neg hlen2]
    exact eval_branch_ends S hS points points a b ha hb ha hb m

/-- A concrete fitting oracle used to instantiate endpoint hypotheses on
concrete inputs: it returns an evaluator that reproduces the first control
point at parameter 0 and the last at parameter 1. -/
def endpointFit : SplineFit :=
  ⟨fun cps => some fun u => if u = 1 then cps.getLastD 0 else cps.headD 0⟩

theorem endpointFit_fits : FitsEndpoints endpointFit := by
  intro cps f hf a b ha hb
  have hf' : f = fun u : ℝ => if u = 1 then cps.getLastD 0 else cps.headD 0 := by
    simpa [endpointFit] using hf.symm
  subst hf'
  constructor
  · show (if (0 : ℝ) = 1 then cps.getLastD 0 else cps.headD 0) = a
    rw [if_neg (by norm_num : ¬(0 : ℝ) = 1), List.headD_eq_head?, ha, Option.getD_some]
  · show (if (1 : ℝ) = 1 then cps.getLastD 0 else cps.headD 0) = b
    rw [if_pos rfl, List.getLastD_eq_getLast?, hb, Option.getD_some]

/-- `create_curve` on two landmarks under the endpoint-interpolating fit:
each sample is the first control point except at parameter 1, where it is the
last. -/
theorem create_curve_endpointFit_eval (a b : Vec3) (c : ℝ) (n : ℕ) :
    create_curve endpointFit [a, b] c n =
    (List.range n).map fun k => if linspace 0 1 n k = 1 then b else a := by
  rw [create_curve, if_neg (by norm_num)]
  rw [show ([a, b] : List Vec3).getD 0 0 = a from rfl,
    show ([a, b] : List Vec3).getD 1 0 = b from rfl,
    if_pos (by norm_num : ([a, b] : List Vec3).length = 2)]
  simp only [endpointFit]
  apply List.map_congr_left
  intro k _
  show (if linspace 0 1 n k = 1 then (control_points a b c).getLastD 0
        else (control_points a b c).headD 0) = _
  rw [show (control_points a b c).getLastD 0 = b from rfl,
    show (control_points a b c).headD 0 = a from rfl]

/-- C4 counterexample: the claim quantifies over every sample count, but at
sample count 1 the only sample is the spline at parameter 0 — the *first*
landmark — so the last sample does not equal the last landmark. -/
theorem c4_counterexample :
    create_curve endpointFit [⟨0, 0, 0⟩, ⟨10, 0, 0⟩] 0.3 1 = [⟨0, 0, 0⟩] ∧
    (create_curve endpointFit [⟨0, 0, 0⟩, ⟨10, 0, 0⟩] 0.3 1).getLast? ≠
      ([⟨0, 0, 0⟩, ⟨10, 0, 0⟩] : List Vec3).getLast? := by
  have h1 : create_curve endpointFit [(⟨0, 0, 0⟩ : Vec3), ⟨10, 0, 0⟩] 0.3 1 =
      [⟨0, 0, 0⟩] := by
    rw [create_curve_endpointFit_eval]
    have hl : linspace 0 1 1 0 = 0 := by norm_num [linspace]
    rw [show List.range 1 = [0] from rfl, List.map_cons, List.map_nil, hl,
      if_neg (by norm_num : ¬(0 : ℝ) = 1)]
  refine ⟨h1, ?_⟩
  rw [h1]
  rw [show ([(⟨0, 0, 0⟩ : Vec3)] : List Vec3).getLast? = some ⟨0, 0, 0⟩ from rfl,
    show ([⟨0, 0, 0⟩, ⟨10, 0, 0⟩] : List Vec3).getLast? = some ⟨10, 0, 0⟩ from rfl]
  intro hcontra
  have := congrArg (fun o => (Option.getD o 0).x) hcontra
  norm_num at this

/-- C4 witness: the amended theorem applied to the two landmarks (0,0,0),
(10,0,0) with curvature 0.3 and the high-resolution sample count 350. -/
theorem c4_witness :
    (create_curve endpointFit [⟨0, 0, 0⟩, ⟨10, 0, 0⟩] 0.3 350).head?
      = ([⟨0, 0, 0⟩, ⟨10, 0, 0⟩] : List Vec3).head? ∧
    (create_curve endpointFit [⟨0, 0, 0⟩, ⟨10, 0, 0⟩] 0.3 350).getLast?
      = ([⟨0, 0, 0⟩, ⟨10, 0, 0⟩] : List Vec3).getLast? :=
  c4_endpoint_fidelity endpointFit endpointFit_fits [⟨0, 0, 0⟩, ⟨10, 0, 0⟩] 0.3 350
    (by norm_num) (by norm_num)

/-- The raw difference tangent `compute_normals` forms at index `i`
(`AortaCurvedMPR.py` lines 455-461): forward difference at index 0, backward
difference at the last index, central difference `(curve[i+1]-curve[i-1])/2`
elsewhere.  Out-of-range indexing (an `IndexError`) is modelled by `none`. -/
def tangentRaw (curve : List Vec3) (i : ℕ) : Option Vec3 :=
  if i = 0 then do
    let a ← curve[1]?
    let b ← curve[0]?
    pure (a - b)
  else if i = curve.length - 1 then do
    let a ← curve[i]?
    let b ← curve[i - 1]?
    pure (a - b)
  else do
    let a ← curve[i + 1]?
    let b ← curve[i - 1]?
    pure ((1 / 2 : ℝ) • (a - b))

/-- The epsilon-normalized tangent at index `i`
(`tangent / (np.linalg.norm(tangent) + 1e-10)`). -/
def tangentUnit (curve : List Vec3) (i : ℕ) : Option Vec3 :=
  (tangentRaw curve i).map normEps

/-- The cross-section normal `compute_normals` derives from the unit tangent
(`AortaCurvedMPR.py` lines 465-470): cross with reference (0,0,1) when
`|tangent.z| < 0.9`, else with (1,0,0), then epsilon-normalized. -/
def normalFromTangent (tangent : Vec3) : Vec3 :=
  if |tangent.z| < 0.9 then normEps (Vec3.cross tangent ⟨0, 0, 1⟩)
  else normEps (Vec3.cross tangent ⟨1, 0, 0⟩)

/-- Collects per-index `Option` results of the Python loop: one `none`
(an uncaught exception at some index) makes the whole call raise. -/
def optList : List (Option Vec3) → Option (List Vec3)
  | [] => some []
  | none :: _ => none
  | some v :: rest => (optList rest).map fun l => v :: l

/-- `InteractiveCurvedMPR.compute_normals` (`AortaCurvedMPR.py` lines 450-472,
`muscleCurvedMPR.py` lines 531-552): one normal per curve point. -/
def compute_normals (curve : List Vec3) : Option (List Vec3) :=
  optList ((List.range curve.length).map fun i => (tangentUnit curve i).map normalFromTangent)

theorem optList_length : ∀ (l : List (Option Vec3)) (r : List Vec3),
    optList l = some r → r.length = l.length := by
  intro l
  induction l with
  | nil => intro r hr; simp [optList] at hr; simp [hr.symm]
  | cons o rest ih =>
    intro r hr
    cases o with
    | none => simp [optList] at hr
    | some v =>
      simp only [optList, Option.map_eq_some'] at hr
      obtain ⟨l2, hl2, rfl⟩ := hr
      simp [ih l2 hl2]

theorem optList_all_some : ∀ l : List (Option Vec3),
    (∀ o ∈ l, o.isSome) → ∃ r, optList l = some r := by
  intro l
  induction l with
  | nil => intro _; exact ⟨[], rfl⟩
  | cons o rest ih =>
    intro h
    obtain ⟨v, rfl⟩ := Option.isSome_iff_exists.mp (h o (by simp))
    obtain ⟨r, hr⟩ := ih fun o ho => h o (by simp [ho])
    exact ⟨v :: r, by simp [optList, hr]⟩

theorem tangentRaw_isSome (curve : List Vec3) (i : ℕ)
    (hi : i < curve.length) (h2 : 2 ≤ curve.length) :
    (tangentRaw curve i).isSome := by
  unfold tangentRaw
  by_cases h0 : i = 0
  · rw [if_pos h0]
    have h1 : curve[1]?.isSome := by
      rw [List.getElem?_eq_getElem (by omega)]; rfl
    have hz : curve[0]?.isSome := by
      rw [List.getElem?_eq_getElem (by omega)]; rfl
    obtain ⟨a, ha⟩ := Option.isSome_iff_exists.mp h1
    obtain ⟨b, hb⟩ := Option.isSome_iff_exists.mp hz
    simp [ha, hb]
  · rw [if_neg h0]
    by_cases hl : i = curve.length - 1
    · rw [if_pos hl]
      obtain ⟨a, ha⟩ := Option.isSome_iff_exists.mp
        (by rw [List.getElem?_eq_getElem hi]; rfl : curve[i]?.isSome)
      obtain ⟨b, hb⟩ := Option.isSome_iff_exists.mp
        (by rw [List.getElem?_eq_getElem (by omega)]; rfl : curve[i - 1]?.isSome)
      simp [ha, hb]
    · rw [if_neg hl]
      obtain ⟨a, ha⟩ := Option.isSome_iff_exists.mp
        (by rw [List.getElem?_eq_getElem (by omega)]; rfl : curve[i + 1]?.isSome)
      obtain ⟨b, hb⟩ := Option.isSome_iff_exists.mp
        (by rw [List.getElem?_eq_getElem (by omega)]; rfl : curve[i - 1]?.isSome)
      simp [ha, hb]

theorem compute_normals_defined (curve : List Vec3) (h2 : 2 ≤ curve.length) :
    ∃ ns, compute_normals curve = some ns := by
  apply optList_all_some
  intro o ho
  simp only [List.mem_map, List.mem_range] at ho
  obtain ⟨i, hi, rfl⟩ := ho
  have := tangentRaw_isSome curve i hi h2
  obtain ⟨t, ht⟩ := Option.isSome_iff_exists.mp this
  simp [tangentUnit, ht]

/-- C10: `compute_normals` is not total on one-point curves: the forward
difference at index 0 reads `curve[1]`, which is out of range, so the call
raises an `IndexError` (modelled by `none`) instead of returning a frame. -/
theorem c10_single_point_curve_raises (curve : List Vec3)
    (h1 : curve.length = 1) : compute_normals curve = none := by
  obtain ⟨p, rfl⟩ : ∃ p, curve = [p] := by
    cases curve with
    | nil => simp at h1
    | cons x t =>
      cases t with
      | nil => exact ⟨x, rfl⟩
      | cons y t2 => simp at h1
  simp [compute_normals, tangentUnit, tangentRaw, optList]

/-- C10 witness: the theorem applied to the one-point curve [(0,0,0)]. -/
theorem c10_witness : compute_normals [(⟨0, 0, 0⟩ : Vec3)] = none :=
  c10_single_point_curve_raises [⟨0, 0, 0⟩] rfl

theorem dot_cross_self (v w : Vec3) : Vec3.dot v (Vec3.cross v w) = 0 := by
  simp only [Vec3.dot, Vec3.cross]
  ring

theorem dot_smul_right (c : ℝ) (v w : Vec3) : Vec3.dot v (c • w) = c * Vec3.dot v w := by
  simp only [Vec3.dot, Vec3.smul_def]
  ring

/-- Epsilon-guarded normalization of a vector of norm at least `δ` has norm
within `eps / δ` of 1. -/
theorem abs_norm_normEps_sub_one (v : Vec3) (δ : ℝ) (hδpos : 0 < δ)
    (h : δ ≤ v.norm) : |(normEps v).norm - 1| ≤ eps / δ := by
  rw [norm_normEps]
  have hpos : 0 < v.norm + eps := by linarith [eps_pos]
  rw [show v.norm / (v.norm + eps) - 1 = -(eps / (v.norm + eps)) by field_simp,
    abs_neg, abs_of_pos (div_pos eps_pos hpos)]
  have hle : δ ≤ v.norm + eps := by linarith [eps_pos]
  gcongr
  exact eps_pos.le

theorem dot_tangent_normal (tangent : Vec3) :
    Vec3.dot tangent (normalFromTangent tangent) = 0 := by
  unfold normalFromTangent
  split
  · rw [normEps, dot_smul_right, dot_cross_self, mul_zero]
  · rw [normEps, dot_smul_right, dot_cross_self, mul_zero]

/-- The cross product the normal is built from has norm at least 0.42 whenever
the unit tangent has norm at least 0.999: the 0.9 threshold on `|tangent.z|`
keeps the chosen reference axis away from the tangent direction. -/
theorem cross_ref_norm_lower (tu : Vec3) (htu : 0.999 ≤ tu.norm) :
    0.42 ≤ (if |tu.z| < 0.9 then Vec3.cross tu ⟨0, 0, 1⟩
            else Vec3.cross tu ⟨1, 0, 0⟩).norm := by
  have hs := Vec3.sq_norm tu
  by_cases hz : |tu.z| < 0.9
  · rw [if_pos hz]
    set c := Vec3.cross tu ⟨0, 0, 1⟩ with hc
    have hcx : c.x = tu.y := by simp [hc, Vec3.cross]
    have hcy : c.y = -tu.x := by simp [hc, Vec3.cross]
    have hcz : c.z = 0 := by simp [hc, Vec3.cross]
    have hsq := Vec3.sq_norm c
    rw [hcx, hcy, hcz] at hsq
    have hz2 : tu.z ^ 2 < 0.81 := by nlinarith [sq_abs tu.z, abs_nonneg tu.z]
    have h18 : (0.18 : ℝ) ≤ c.norm ^ 2 := by nlinarith [Vec3.norm_nonneg tu]
    nlinarith [Vec3.norm_nonneg c]
  · rw [if_neg hz]
    set c := Vec3.cross tu ⟨1, 0, 0⟩ with hc
    have hcx : c.x = 0 := by simp [hc, Vec3.cross]
    have hcy : c.y = tu.z := by simp [hc, Vec3.cross]
    have hcz : c.z = -tu.y := by simp [hc, Vec3.cross]
    have hsq := Vec3.sq_norm c
    rw [hcx, hcy, hcz] at hsq
    have hz2 : (0.81 : ℝ) ≤ tu.z ^ 2 := by
      nlinarith [sq_abs tu.z, abs_nonneg tu.z, not_lt.mp hz]
    have h18 : (0.81 : ℝ) ≤ c.norm ^ 2 := by nlinarith [sq_nonneg tu.y]
    nlinarith [Vec3.norm_nonneg c]

/-- C2 counterexample: the claim as stated quantifies over every curve on
which `compute_normals` is defined.  On the degenerate 2-point curve
[(0,0,0), (0,0,0)] the computation is defined (raises nothing), yet the
epsilon-normalized tangent at index 0 is the zero vector, whose norm 0 is not
within any floating tolerance of 1. -/
theorem c2_counterexample :
    compute_normals [(⟨0, 0, 0⟩ : Vec3), ⟨0, 0, 0⟩] ≠ none ∧
    (tangentUnit [(⟨0, 0, 0⟩ : Vec3), ⟨0, 0, 0⟩] 0).map Vec3.norm = some 0 := by
  constructor
  · obtain ⟨ns, hns⟩ := compute_normals_defined [(⟨0, 0, 0⟩ : Vec3), ⟨0, 0, 0⟩] (by norm_num)
    simp [hns]
  · have h1 : tangentRaw [(⟨0, 0, 0⟩ : Vec3), ⟨0, 0, 0⟩] 0 = some ⟨0, 0, 0⟩ := by
      simp [tangentRaw]
    simp only [tangentUnit, h1, Option.map_some']
    have h2 : (normEps (⟨0, 0, 0⟩ : Vec3)) = ⟨0, 0, 0⟩ := by
      simp [normEps]
    rw [h2]
    simp [Vec3.norm]

/-- C2 (amended): for every curve and index at which the raw difference
tangent is defined and has norm at least 1/1000 (a non-degenerate curve), the
epsilon-normalized tangent and the normal returned by `compute_normals`
satisfy exact orthogonality `dot = 0`, have norms within 1e-7 of 1, and the
returned sequence has one normal per curve point. -/
theorem c2_frame_orthogonality (curve : List Vec3) (i : ℕ) (traw : Vec3)
    (htan : tangentRaw curve i = some traw) (hδ : 1 / 1000 ≤ traw.norm) :
    Vec3.dot (normEps traw) (normalFromTangent (normEps traw)) = 0 ∧
    |(normEps traw).norm - 1| ≤ 1e-7 ∧
    |(normalFromTangent (normEps traw)).norm - 1| ≤ 1e-7 ∧
    ∀ ns, compute_normals curve = some ns → ns.length = curve.length := by
  refine ⟨dot_tangent_normal _, ?_, ?_, ?_⟩
  · calc |(normEps traw).norm - 1| ≤ eps / (1 / 1000) :=
          abs_norm_normEps_sub_one traw (1 / 1000) (by norm_num) hδ
      _ ≤ 1e-7 := by norm_num [eps]
  · have htu : 0.999 ≤ (normEps traw).norm := by
      have hclose : |(normEps traw).norm - 1| ≤ eps / (1 / 1000) :=
        abs_norm_normEps_sub_one traw (1 / 1000) (by norm_num) hδ
      have := abs_le.mp hclose
      have heps : eps / (1 / 1000) = 1e-7 := by norm_num [eps]
      rw [heps] at this
      linarith [this.1]
    have hcross := cross_ref_norm_lower (normEps traw) htu
    have hfinal : |(normalFromTangent (normEps traw)).norm - 1| ≤ eps / 0.42 := by
      unfold normalFromTangent
      by_cases hz : |(normEps traw).z| < 0.9
      · rw [if_pos hz]
        rw [if_pos hz] at hcross
        exact abs_norm_normEps_sub_one _ 0.42 (by norm_num) hcross
      · rw [if_neg hz]
        rw [if_neg hz] at hcross
        exact abs_norm_normEps_sub_one _ 0.42 (by norm_num) hcross
    calc |(normalFromTangent (normEps traw)).norm - 1| ≤ eps / 0.42 := hfinal
      _ ≤ 1e-7 := by norm_num [eps]
  · intro ns hns
    have := optList_length _ ns hns
    simpa using this

/-- C2 witness: the theorem applied to the straight 2-point curve
[(0,0,0), (1,0,0)] at index 0, whose raw tangent is (1,0,0) of norm 1. -/
theorem c2_witness :
    (tangentRaw [(⟨0, 0, 0⟩ : Vec3), ⟨1, 0, 0⟩] 0 = some ⟨1, 0, 0⟩ ∧
      1 / 1000 ≤ (⟨1, 0, 0⟩ : Vec3).norm) ∧
    (Vec3.dot (normEps ⟨1, 0, 0⟩) (normalFromTangent (normEps ⟨1, 0, 0⟩)) = 0 ∧
      |(normEps (⟨1, 0, 0⟩ : Vec3)).norm - 1| ≤ 1e-7 ∧
      |(normalFromTangent (normEps ⟨1, 0, 0⟩)).norm - 1| ≤ 1e-7 ∧
      ∀ ns, compute_normals [(⟨0, 0, 0⟩ : Vec3), ⟨1, 0, 0⟩] = some ns →
        ns.length = ([(⟨0, 0, 0⟩ : Vec3), ⟨1, 0, 0⟩] : List Vec3).length) := by
  have htan : tangentRaw [(⟨0, 0, 0⟩ : Vec3), ⟨1, 0, 0⟩] 0 = some ⟨1, 0, 0⟩ := by
    simp [tangentRaw]
  have hnorm : 1 / 1000 ≤ (⟨1, 0, 0⟩ : Vec3).norm := by
    have : (⟨1, 0, 0⟩ : Vec3).norm = 1 := by
      simp [Vec3.norm]
    rw [this]
    norm_num
  exact ⟨⟨htan, hnorm⟩,
    c2_frame_orthogonality [(⟨0, 0, 0⟩ : Vec3), ⟨1, 0, 0⟩] 0 ⟨1, 0, 0⟩ htan hnorm⟩

/-- A read-only 3D scalar volume (`self.data`): per-axis integer extents
(`self.data.shape`) and voxel intensities. -/
structure Volume where
  nx : ℕ
  ny : ℕ
  nz : ℕ
  data : ℕ → ℕ → ℕ → ℝ

/-- Raw voxel read at integer indices; out-of-range indexing is an exception
(`none`). -/
def getVox (V : Volume) (i j k : ℤ) : Option ℝ :=
  if 0 ≤ i ∧ i < (V.nx : ℤ) ∧ 0 ≤ j ∧ j < (V.ny : ℤ) ∧ 0 ≤ k ∧ k < (V.nz : ℤ)
  then some (V.data i.toNat j.toNat k.toNat) else none

/-- Modelled from the spec: `scipy.ndimage.map_coordinates` with `order=1`,
`mode='constant'`, `cval=0.0` is third-party code, not in this repository; per
its documented semantics it is order-1 (trilinear) interpolation over the 8
surrounding grid values, with constant extension 0 outside the grid. -/
def trilinear (g : ℤ → ℤ → ℤ → ℝ) (x y z : ℝ) : ℝ :=
  let i := ⌊x⌋
  let j := ⌊y⌋
  let k := ⌊z⌋
  let fx := x - i
  let fy := y - j
  let fz := z - k
  (1 - fx) * (1 - fy) * (1 - fz) * g i j k
  + fx * (1 - fy) * (1 - fz) * g (i + 1) j k
  + (1 - fx) * fy * (1 - fz) * g i (j + 1) k
  + (1 - fx) * (1 - fy) * fz * g i j (k + 1)
  + fx * fy * (1 - fz) * g (i + 1) (j + 1) k
  + fx * (1 - fy) * fz * g (i + 1) j (k + 1)
  + (1 - fx) * fy * fz * g i (j + 1) (k + 1)
  + fx * fy * fz * g (i + 1) (j + 1) (k + 1)

/-- `map_coordinates(self.data, coords, order=1, mode='constant', cval=0.0)`
at the fractional coordinate `p`. -/
def map_coordinates (V : Volume) (p : Vec3) : ℝ :=
  trilinear (fun i j k => (getVox V i j k).getD 0) p.x p.y p.z

/-- The bounds predicate of `extract_mpr`:
`all(0 <= sample_point[k] < self.data.shape[k]-1 for k in range(3))`. -/
def inBounds (V : Volume) (p : Vec3) : Prop :=
  0 ≤ p.x ∧ p.x < (V.nx : ℝ) - 1 ∧ 0 ≤ p.y ∧ p.y < (V.ny : ℝ) - 1 ∧
  0 ≤ p.z ∧ p.z < (V.nz : ℝ) - 1

instance decInBounds (V : Volume) (p : Vec3) : Decidable (inBounds V p) := by
  unfold inBounds
  infer_instance

/-- One output cell of `extract_mpr`: keeps its initial value 0 unless the
sample point `center + normal * offset` is strictly inside `[0, extent-1)` on
every axis, in which case the volume is interpolated there. -/
def mprCell (V : Volume) (center normal : Vec3) (offset : ℝ) : ℝ :=
  if inBounds V (center + offset • normal)
  then map_coordinates V (center + offset • normal) else 0

/-- `InteractiveCurvedMPR.extract_mpr` (`AortaCurvedMPR.py` lines 420-448,
`muscleCurvedMPR.py` lines 502-529): a `(height, len(curve))` grid; row `j`
uses offset `np.linspace(-height/2, height/2, height)[j]`, column `i` the
`i`-th curve point and normal. -/
def extract_mpr (V : Volume) (curve : List Vec3) (height : ℕ) :
    Option (List (List ℝ)) :=
  (compute_normals curve).map fun normals =>
    (List.range height).map fun j =>
      (List.range curve.length).map fun i =>
        mprCell V (curve.getD i 0) (normals.getD i 0)
          (linspace (-(height : ℝ) / 2) ((height : ℝ) / 2) height j)

theorem getD_map_range {α : Type} (f : ℕ → α) (n j : ℕ) (hj : j < n) (d : α) :
    ((List.range n).map f).getD j d = f j := by
  rw [List.getD_eq_getElem?_getD, List.getElem?_map, List.getElem?_range hj,
    Option.map_some', Option.getD_some]

theorem floor_corner (x : ℝ) (n : ℕ) (h0 : 0 ≤ x) (h1 : x < (n : ℝ) - 1) :
    0 ≤ ⌊x⌋ ∧ ⌊x⌋ + 1 < (n : ℤ) := by
  refine ⟨Int.floor_nonneg.mpr h0, ?_⟩
  have hlt : x < (((n : ℤ) - 1 : ℤ) : ℝ) := by push_cast; linarith
  have h2 : ⌊x⌋ < (n : ℤ) - 1 := Int.floor_lt.mpr hlt
  omega

theorem getVox_isSome_of_inBounds (V : Volume) (p : Vec3) (hb : inBounds V p)
    (a b c : ℤ) (ha : a = ⌊p.x⌋ ∨ a = ⌊p.x⌋ + 1)
    (hbb : b = ⌊p.y⌋ ∨ b = ⌊p.y⌋ + 1) (hc : c = ⌊p.z⌋ ∨ c = ⌊p.z⌋ + 1) :
    (getVox V a b c).isSome := by
  obtain ⟨hx0, hx1, hy0, hy1, hz0, hz1⟩ := hb
  obtain ⟨hax, hax1⟩ := floor_corner p.x V.nx hx0 hx1
  obtain ⟨hay, hay1⟩ := floor_corner p.y V.ny hy0 hy1
  obtain ⟨haz, haz1⟩ := floor_corner p.z V.nz hz0 hz1
  have hcond : 0 ≤ a ∧ a < (V.nx : ℤ) ∧ 0 ≤ b ∧ b < (V.ny : ℤ) ∧
      0 ≤ c ∧ c < (V.nz : ℤ) := by
    rcases ha with rfl | rfl <;> rcases hbb with rfl | rfl <;>
      rcases hc with rfl | rfl <;> omega
  rw [getVox, if_pos hcond]
  rfl

/-- C3: for every volume, curve with a defined frame field, and output cell
(j, i): the output grid has shape (height, len curve); the cell at (j, i) uses
offset `linspace(-height/2, height/2, height)[j]` and curve position i; the
cell is 0 when the sample point is outside `[0, extent-1)` on any axis (no
exception raised), and otherwise equals the order-1 (trilinear) interpolation
of the volume there, all 8 voxel reads being in range. -/
theorem c3_resample_bounds (V : Volume) (curve : List Vec3) (height : ℕ)
    (normals : List Vec3) (hn : compute_normals curve = some normals)
    (j i : ℕ) (hj : j < height) (hi : i < curve.length) (p : Vec3)
    (hp : p = curve.getD i 0 +
      linspace (-(height : ℝ) / 2) ((height : ℝ) / 2) height j • normals.getD i 0) :
    ∃ grid, extract_mpr V curve height = some grid ∧
      grid.length = height ∧
      (∀ row ∈ grid, row.length = curve.length) ∧
      (grid.getD j []).getD i 0 = (if inBounds V p then map_coordinates V p else 0) ∧
      (inBounds V p → ∀ a b c : ℤ,
        (a = ⌊p.x⌋ ∨ a = ⌊p.x⌋ + 1) →
        (b = ⌊p.y⌋ ∨ b = ⌊p.y⌋ + 1) →
        (c = ⌊p.z⌋ ∨ c = ⌊p.z⌋ + 1) → (getVox V a b c).isSome) := by
  subst hp
  refine ⟨_, by rw [extract_mpr, hn, Option.map_some'], ?_, ?_, ?_, ?_⟩
  · simp
  · intro row hrow
    simp only [List.mem_map, List.mem_range] at hrow
    obtain ⟨j2, _, rfl⟩ := hrow
    simp
  · rw [getD_map_range _ height j hj, getD_map_range _ curve.length i hi, mprCell]
  · intro hb a b c
    exact getVox_isSome_of_inBounds V _ hb a b c

/-- C3 witness: the theorem applied to a (10,10,10) constant volume, the
2-point curve [(0,0,0), (1,0,0)] and output cell (0, 0) of a height-4 grid. -/
theorem c3_witness :
    ∃ normals grid, compute_normals [(⟨0, 0, 0⟩ : Vec3), ⟨1, 0, 0⟩] = some normals ∧
      extract_mpr ⟨10, 10, 10, fun _ _ _ => 5⟩
        [(⟨0, 0, 0⟩ : Vec3), ⟨1, 0, 0⟩] 4 = some grid ∧
      grid.length = 4 ∧
      (∀ row ∈ grid, row.length = 2) ∧
      (grid.getD 0 []).getD 0 0 =
        (if inBounds ⟨10, 10, 10, fun _ _ _ => 5⟩
            (([(⟨0, 0, 0⟩ : Vec3), ⟨1, 0, 0⟩] : List Vec3).getD 0 0 +
              linspace (-(4 : ℝ) / 2) ((4 : ℝ) / 2) 4 0 • normals.getD 0 0)
          then map_coordinates ⟨10, 10, 10, fun _ _ _ => 5⟩
            (([(⟨0, 0, 0⟩ : Vec3), ⟨1, 0, 0⟩] : List Vec3).getD 0 0 +
              linspace (-(4 : ℝ) / 2) ((4 : ℝ) / 2) 4 0 • normals.getD 0 0)
          else 0) := by
  obtain ⟨ns, hns⟩ := compute_normals_defined [(⟨0, 0, 0⟩ : Vec3), ⟨1, 0, 0⟩] (by norm_num)
  obtain ⟨grid, h1, h2, h3, h4, _⟩ :=
    c3_resample_bounds ⟨10, 10, 10, fun _ _ _ => 5⟩ [(⟨0, 0, 0⟩ : Vec3), ⟨1, 0, 0⟩] 4
      ns hns 0 0 (by norm_num) (by norm_num) _ rfl
  exact ⟨ns, grid, hns, h1, h2, by simpa using h3, h4⟩

/-- Insertion into an ascending-sorted list. -/
def insertSorted (x : ℝ) : List ℝ → List ℝ
  | [] => [x]
  | y :: ys => if x ≤ y then x :: y :: ys else y :: insertSorted x ys

/-- Ascending sort of the data, the order statistics `np.percentile` uses. -/
def sortAsc (l : List ℝ) : List ℝ := l.foldr insertSorted []

theorem insertSorted_perm (x : ℝ) (l : List ℝ) :
    List.Perm (insertSorted x l) (x :: l) := by
  induction l with
  | nil => exact List.Perm.refl _
  | cons y ys ih =>
    rw [insertSorted]
    split
    · exact List.Perm.refl _
    · exact (ih.cons y).trans (List.Perm.swap x y ys)

theorem sortAsc_perm (l : List ℝ) : List.Perm (sortAsc l) l := by
  induction l with
  | nil => exact List.Perm.refl _
  | cons y ys ih =>
    exact (insertSorted_perm y (sortAsc ys)).trans (ih.cons y)

/-- Modelled from the spec: `np.percentile(a, q)` is a numpy call, not code of
this repository; its default linear interpolation takes the virtual index
`q/100*(n-1)` into the sorted data and interpolates between the bracketing
order statistics.  It raises on empty input; callers guard nonemptiness. -/
def percentile (l : List ℝ) (q : ℝ) : ℝ :=
  let s := sortAsc l
  let idx := q / 100 * ((l.length : ℝ) - 1)
  let lo := ⌊idx⌋.toNat
  let va := s.getD lo 0
  let vb := s.getD (lo + 1) va
  va + (idx - ⌊idx⌋) * (vb - va)

/-- A percentile of an all-equal data set is that common value. -/
theorem percentile_const (l : List ℝ) (v q : ℝ) (hne : l ≠ [])
    (hall : ∀ x ∈ l, x = v) (hq0 : 0 ≤ q) (hq1 : q ≤ 100) :
    percentile l q = v := by
  have hperm := sortAsc_perm l
  have hsall : ∀ x ∈ sortAsc l, x = v := fun x hx => hall x (hperm.mem_iff.mp hx)
  have hslen : (sortAsc l).length = l.length := hperm.length_eq
  have hn : 1 ≤ l.length := by
    cases l with
    | nil => exact absurd rfl hne
    | cons a t => simp
  set idx := q / 100 * ((l.length : ℝ) - 1) with hidx
  have hgoal : percentile l q = (sortAsc l).getD ⌊idx⌋.toNat 0
      + (idx - ⌊idx⌋) * ((sortAsc l).getD (⌊idx⌋.toNat + 1) ((sortAsc l).getD ⌊idx⌋.toNat 0)
        - (sortAsc l).getD ⌊idx⌋.toNat 0) := rfl
  rw [hgoal]
  have hidx0 : 0 ≤ idx := by
    apply mul_nonneg (by positivity)
    have : (1 : ℝ) ≤ (l.length : ℝ) := by exact_mod_cast hn
    linarith
  have hidxle : idx ≤ (l.length : ℝ) - 1 := by
    have h1 : q / 100 ≤ 1 := by linarith [div_le_one_of_le hq1 (by norm_num : (0:ℝ) ≤ 100)]
    have h2 : (0 : ℝ) ≤ (l.length : ℝ) - 1 := by
      have : (1 : ℝ) ≤ (l.length : ℝ) := by exact_mod_cast hn
      linarith
    nlinarith
  have hlo_lt : ⌊idx⌋.toNat < l.length := by
    have h1 : (⌊idx⌋ : ℝ) ≤ idx := Int.floor_le idx
    have h2 : (⌊idx⌋ : ℝ) ≤ (l.length : ℝ) - 1 := le_trans h1 hidxle
    have h3 : ⌊idx⌋ ≤ (l.length : ℤ) - 1 := by exact_mod_cast h2
    omega
  have hva : (sortAsc l).getD ⌊idx⌋.toNat 0 = v := by
    rw [List.getD_eq_getElem?_getD, List.getElem?_eq_getElem (by omega : ⌊idx⌋.toNat < (sortAsc l).length)]
    exact hsall _ (List.getElem_mem _)
  rw [hva]
  by_cases hlo1 : ⌊idx⌋.toNat + 1 < (sortAsc l).length
  · rw [List.getD_eq_getElem?_getD, List.getElem?_eq_getElem hlo1, Option.getD_some,
      hsall _ (List.getElem_mem _)]
    ring
  · rw [List.getD_eq_getElem?_getD, List.getElem?_eq_none (by omega), Option.getD_none]
    ring

/-- `arr.max()` for a numpy array flattened to a list; `none` is the
`ValueError` numpy raises on an empty array. -/
def npMax (l : List ℝ) : Option ℝ :=
  match l with
  | [] => none
  | v :: rest => some (rest.foldl max v)

theorem foldl_max_mem : ∀ (rest : List ℝ) (v : ℝ), rest.foldl max v ∈ v :: rest := by
  intro rest
  induction rest with
  | nil => intro v; simp
  | cons w ws ih =>
    intro v
    rw [List.foldl_cons]
    rcases List.mem_cons.mp (ih (max v w)) with h2 | h2
    · rcases max_choice v w with h3 | h3 <;> rw [h2, h3] <;> simp
    · exact List.mem_cons_of_mem _ (List.mem_cons_of_mem _ h2)

theorem npMax_mem (l : List ℝ) (m : ℝ) (h : npMax l = some m) : m ∈ l := by
  cases l with
  | nil => simp [npMax] at h
  | cons v rest =>
    simp only [npMax, Option.some.injEq] at h
    subst h
    exact foldl_max_mem rest v

/-- The contrast-enhancement step of `generate_mpr` (`AortaCurvedMPR.py` lines
346-354; `muscleCurvedMPR.py` lines 438-443 — the scripts differ only in the
gamma exponent, 0.75 vs 0.8, here the parameter `gamma`): when the image
maximum is positive, rescale by the 1st/99th percentiles of the strictly
positive values with the epsilon-guarded denominator, clip to [0,1], and raise
to `gamma`; otherwise the image is returned unchanged.  `none` models the
exception numpy raises when reducing or taking percentiles of an empty
array. -/
def enhance (gamma : ℝ) (img : List (List ℝ)) : Option (List (List ℝ)) :=
  (npMax img.join).bind fun m =>
    if 0 < m then
      let pos := img.join.filter fun x => decide (0 < x)
      if pos.isEmpty then none
      else
        let p1 := percentile pos 1
        let p99 := percentile pos 99
        some (img.map (List.map fun x =>
          (min (max ((x - p1) / (p99 - p1 + eps)) 0) 1) ^ gamma))
    else some img

/-- C7 counterexample: on the 1×1 image [[5]] every strictly-positive value
equals 5, so p1 = p99 = 5; the enhancement returns the all-0.0 image, not the
all-1.0 image the claim states. -/
theorem c7_counterexample :
    enhance 0.75 [[5]] = some [[0]] ∧
    (some [[(0 : ℝ)]] : Option (List (List ℝ))) ≠ some [[1]] := by
  constructor
  · have hjoin : ([[(5 : ℝ)]] : List (List ℝ)).join = [5] := by simp
    have hmax : npMax ([[(5 : ℝ)]] : List (List ℝ)).join = some 5 := by
      rw [hjoin]; simp [npMax]
    have hfilter : ([(5 : ℝ)]).filter (fun x => decide (0 < x)) = [5] := by
      simp only [List.filter, decide_eq_true_eq]
      norm_num
    have hperc1 : percentile [(5 : ℝ)] 1 = 5 :=
      percentile_const [5] 5 1 (by simp) (by intro x hx; simpa using hx)
        (by norm_num) (by norm_num)
    have hperc99 : percentile [(5 : ℝ)] 99 = 5 :=
      percentile_const [5] 5 99 (by simp) (by intro x hx; simpa using hx)
        (by norm_num) (by norm_num)
    simp only [enhance, hmax, Option.some_bind]
    rw [if_pos (by norm_num : (0 : ℝ) < 5)]
    simp only [hjoin, hfilter, hperc1, hperc99]
    rw [if_neg (by simp)]
    simp only [List.map_cons, List.map_nil, Option.some.injEq]
    have hval : ((min (max (((5 : ℝ) - 5) / (5 - 5 + eps)) 0) 1) ^ (0.75 : ℝ)) = 0 := by
      rw [show ((5 : ℝ) - 5) / (5 - 5 + eps) = 0 by simp]
      rw [show min (max (0 : ℝ) 0) 1 = 0 by norm_num]
      exact Real.zero_rpow (by norm_num)
    rw [hval]
  · simp

/-- C7 (amended): for every image whose strictly-positive values all equal
some constant v > 0 (so p1 = p99 = v) and every gamma > 0, the enhancement
step returns the all-0.0 image of the same shape: the numerator of the
epsilon-guarded rescale is at most 0 at every cell, the clip maps it to 0, and
0^gamma = 0. -/
theorem c7_enhance_constant_positive (gamma : ℝ) (hγ : 0 < gamma)
    (img : List (List ℝ)) (v : ℝ) (hv : 0 < v)
    (hall : ∀ row ∈ img, ∀ x ∈ row, 0 < x → x = v)
    (hex : ∃ row ∈ img, ∃ x ∈ row, 0 < x) :
    enhance gamma img = some (img.map (List.map fun _ => (0 : ℝ))) := by
  have hall' : ∀ x ∈ img.join, 0 < x → x = v := by
    intro x hx
    rw [List.mem_join] at hx
    obtain ⟨row, hrow, hxr⟩ := hx
    exact hall row hrow x hxr
  obtain ⟨row0, hrow0, x0, hx0, hx0pos⟩ := hex
  have hx0j : x0 ∈ img.join := List.mem_join.mpr ⟨row0, hrow0, hx0⟩
  obtain ⟨m, hm⟩ : ∃ m, npMax img.join = some m := by
    cases hj : img.join with
    | nil => rw [hj] at hx0j; simp at hx0j
    | cons a rest => exact ⟨rest.foldl max a, rfl⟩
  have hmpos : 0 < m := by
    have hmem := npMax_mem _ _ hm
    by_cases hmp : 0 < m
    · exact hmp
    · exfalso
      push_neg at hmp
      -- the max bounds every element, so x0 ≤ m ≤ 0 contradicts 0 < x0
      have hle : ∀ x ∈ img.join, x ≤ m := by
        cases hj : img.join with
        | nil => simp
        | cons a rest =>
          rw [hj] at hm
          simp only [npMax, Option.some.injEq] at hm
          subst hm
          intro x hx
          have : ∀ (l : List ℝ) (acc : ℝ), acc ≤ l.foldl max acc ∧
              ∀ y ∈ l, y ≤ l.foldl max acc := by
            intro l
            induction l with
            | nil => intro acc; exact ⟨le_refl acc, by simp⟩
            | cons w ws ih =>
              intro acc
              obtain ⟨h1, h2⟩ := ih (max acc w)
              refine ⟨le_trans (le_max_left acc w) h1, ?_⟩
              intro y hy
              rcases List.mem_cons.mp hy with rfl | hy2
              · exact le_trans (le_max_right acc y) h1
              · exact h2 y hy2
          rcases List.mem_cons.mp hx with rfl | hx2
          · exact (this rest x).1
          · exact (this rest a).2 x hx2
      exact absurd (lt_of_lt_of_le hx0pos (hle x0 hx0j)) (not_lt.mpr hmp)
  set pos := img.join.filter fun x => decide (0 < x) with hpos
  have hx0pos' : x0 ∈ pos := by
    rw [hpos, List.mem_filter]
    exact ⟨hx0j, by simpa using hx0pos⟩
  have hposne : ¬pos.isEmpty := by
    cases hpe : pos with
    | nil => rw [hpe] at hx0pos'; simp at hx0pos'
    | cons a rest => simp
  have hposall : ∀ x ∈ pos, x = v := by
    intro x hx
    rw [hpos, List.mem_filter] at hx
    exact hall' x hx.1 (by simpa using hx.2)
  have hposne' : pos ≠ [] := by
    intro h
    rw [h] at hx0pos'
    simp at hx0pos'
  have hp1 : percentile pos 1 = v :=
    percentile_const pos v 1 hposne' hposall (by norm_num) (by norm_num)
  have hp99 : percentile pos 99 = v :=
    percentile_const pos v 99 hposne' hposall (by norm_num) (by norm_num)
  simp only [enhance, hm, Option.some_bind]
  rw [if_pos hmpos,
    show (img.join.filter fun x => decide (0 < x)) = pos from rfl, if_neg hposne]
  simp only [hp1, hp99, Option.some.injEq]
  apply List.map_congr_left
  intro row hrow
  apply List.map_congr_left
  intro x hx
  have hxv : x ≤ v := by
    by_cases hxp : 0 < x
    · exact le_of_eq (hall row hrow x hx hxp)
    · push_neg at hxp
      linarith
  have harg : (x - v) / (v - v + eps) ≤ 0 := by
    apply div_nonpos_of_nonpos_of_nonneg
    · linarith
    · simp [eps_pos.le]
  rw [show max ((x - v) / (v - v + eps)) 0 = 0 from max_eq_right harg,
    show min (0 : ℝ) 1 = 0 by norm_num]
  exact Real.zero_rpow (ne_of_gt hγ)

/-- C7 witness: the amended theorem applied to the image [[5]] with v = 5 and
gamma = 0.75. -/
theorem c7_witness :
    ((0 : ℝ) < 0.75 ∧ (0 : ℝ) < 5 ∧
      (∀ row ∈ ([[(5 : ℝ)]] : List (List ℝ)), ∀ x ∈ row, 0 < x → x = 5) ∧
      (∃ row ∈ ([[(5 : ℝ)]] : List (List ℝ)), ∃ x ∈ row, 0 < x)) ∧
    enhance 0.75 [[(5 : ℝ)]] =
      some (([[(5 : ℝ)]] : List (List ℝ)).map (List.map fun _ => (0 : ℝ))) := by
  refine ⟨⟨by norm_num, by norm_num, ?_, ?_⟩, ?_⟩
  · intro row hrow x hx _
    simp only [List.mem_singleton] at hrow
    subst hrow
    simpa using hx
  · exact ⟨[5], by simp, 5, by simp, by norm_num⟩
  · exact c7_enhance_constant_positive 0.75 (by norm_num) [[5]] 5 (by norm_num)
      (by intro row hrow x hx _
          simp only [List.mem_singleton] at hrow
          subst hrow
          simpa using hx)
      ⟨[5], by simp, 5, by simp, by norm_num⟩

/-- The session state `generate_mpr` reads: the landmark list `self.points`,
the curvature `self.curve_factor`, the working volume `self.data` and the MPR
grid parameters (`self.mpr_height` = 120/140, `self.mpr_points` = 350/300 in
the two scripts). -/
structure Session where
  points : List Vec3
  curve_factor : ℝ
  data : Volume
  mpr_height : ℕ
  mpr_points : ℕ

/-- Outcome of a reconstruction request: the refusal branch (a user-visible
warning is drawn, no image is produced) or the enhanced image displayed. -/
inductive MPROutcome where
  | refused
  | image (img : List (List ℝ))

/-- `InteractiveCurvedMPR.generate_mpr` (`AortaCurvedMPR.py` lines 324-418,
`muscleCurvedMPR.py` lines 421-500): with fewer than 2 landmarks it prints a
warning, draws it, and returns without producing an image; otherwise it runs
`create_curve_high_res` → `extract_mpr` → enhancement and displays the result.
The returned `Session` expresses that the landmark list and curvature are not
mutated; the outer `none` models an uncaught exception. -/
def generate_mpr (S : SplineFit) (gamma : ℝ) (s : Session) :
    Option (Session × MPROutcome) :=
  if s.points.length < 2 then some (s, MPROutcome.refused)
  else
    (extract_mpr s.data (create_curve S s.points s.curve_factor s.mpr_points)
        s.mpr_height).bind
      fun mpr_image => (enhance gamma mpr_image).map
        fun mpr_enhanced => (s, MPROutcome.image mpr_enhanced)

theorem create_curve_length (S : SplineFit) (pts : List Vec3) (cf : ℝ) (n : ℕ)
    (h2 : 2 ≤ pts.length) (hn : 2 ≤ n) :
    2 ≤ (create_curve S pts cf n).length := by
  rw [create_curve, if_neg (Nat.not_lt.mpr h2)]
  cases hfit : S.fit (if pts.length = 2
      then control_points (pts.getD 0 0) (pts.getD 1 0) cf else pts) with
  | none => simpa only [hfit] using h2
  | some f =>
    simp only [hfit, List.length_map, List.length_range]
    exact hn

theorem enhance_total (gamma : ℝ) (img : List (List ℝ)) (hne : img.join ≠ []) :
    ∃ out, enhance gamma img = some out := by
  obtain ⟨a, rest, hj⟩ : ∃ a rest, img.join = a :: rest := by
    cases h : img.join with
    | nil => exact absurd h hne
    | cons a rest => exact ⟨a, rest, rfl⟩
  have hm : npMax img.join = some (rest.foldl max a) := by rw [hj]; rfl
  by_cases hpos : 0 < rest.foldl max a
  · have hmem : rest.foldl max a ∈ img.join := npMax_mem _ _ hm
    have hfmem : rest.foldl max a ∈ img.join.filter fun x => decide (0 < x) :=
      List.mem_filter.mpr ⟨hmem, by simpa using hpos⟩
    have hne2 : ¬(img.join.filter fun x => decide (0 < x)).isEmpty := by
      cases hpe : img.join.filter fun x => decide (0 < x) with
      | nil => rw [hpe] at hfmem; simp at hfmem
      | cons b bs => simp
    refine ⟨img.map (List.map fun x =>
      (min (max ((x - percentile (List.filter (fun y => decide (0 < y)) img.join) 1) /
        (percentile (List.filter (fun y => decide (0 < y)) img.join) 99 -
         percentile (List.filter (fun y => decide (0 < y)) img.join) 1 + eps)) 0) 1)
        ^ gamma), ?_⟩
    simp only [enhance, hm, Option.some_bind]
    rw [if_pos hpos, if_neg hne2]
  · refine ⟨img, ?_⟩
    simp only [enhance, hm, Option.some_bind]
    rw [if_neg hpos]

theorem extract_mpr_join_ne (V : Volume) (curve : List Vec3) (height : ℕ)
    (grid : List (List ℝ)) (hg : extract_mpr V curve height = some grid)
    (hh : 1 ≤ height) (hc : 1 ≤ curve.length) : grid.join ≠ [] := by
  rw [extract_mpr] at hg
  cases hcn : compute_normals curve with
  | none => rw [hcn] at hg; simp at hg
  | some ns =>
    rw [hcn, Option.map_some', Option.some.injEq] at hg
    subst hg
    intro hjoin
    rw [List.join_eq_nil_iff] at hjoin
    have h0mem : ((List.range curve.length).map fun i =>
        mprCell V (curve.getD i 0) (ns.getD i 0)
          (linspace (-(height : ℝ) / 2) ((height : ℝ) / 2) height 0)) ∈
        (List.range height).map fun j =>
          (List.range curve.length).map fun i =>
            mprCell V (curve.getD i 0) (ns.getD i 0)
              (linspace (-(height : ℝ) / 2) ((height : ℝ) / 2) height j) :=
      List.mem_map.mpr ⟨0, by simpa using hh, rfl⟩
    have hrow0 := hjoin _ h0mem
    have hlen := congrArg List.length hrow0
    simp only [List.length_map, List.length_range, List.length_nil] at hlen
    omega

/-- C5: for every session with fewer than 2 landmark points, `generate_mpr`
refuses with a user-visible message, produces no reconstructed image, and
leaves the session state (the landmark list and curvature) unchanged; with at
least 2 points the PathBuilder → FrameField → VolumeResampler → ImageEnhancer
pipeline runs to completion and produces an image (the session again
unchanged).  The grid parameters satisfy `1 ≤ mpr_height` and
`2 ≤ mpr_points` in both scripts (120/350 and 140/300). -/
theorem c5_reconstruction_gate (S : SplineFit) (gamma : ℝ) (s : Session)
    (hh : 1 ≤ s.mpr_height) (hp : 2 ≤ s.mpr_points) :
    (s.points.length < 2 → generate_mpr S gamma s = some (s, MPROutcome.refused)) ∧
    (2 ≤ s.points.length →
      ∃ img, generate_mpr S gamma s = some (s, MPROutcome.image img)) := by
  constructor
  · intro h
    rw [generate_mpr, if_pos h]
  · intro h2
    rw [generate_mpr, if_neg (Nat.not_lt.mpr h2)]
    have hclen : 2 ≤ (create_curve S s.points s.curve_factor s.mpr_points).length :=
      create_curve_length S s.points s.curve_factor s.mpr_points h2 hp
    obtain ⟨ns, hns⟩ := compute_normals_defined _ hclen
    obtain ⟨grid, hex⟩ : ∃ grid,
        extract_mpr s.data (create_curve S s.points s.curve_factor s.mpr_points)
          s.mpr_height = some grid := by
      rw [extract_mpr, hns, Option.map_some']
      exact ⟨_, rfl⟩
    have hjoin := extract_mpr_join_ne _ _ _ _ hex hh (by omega)
    obtain ⟨out, hout⟩ := enhance_total gamma grid hjoin
    refine ⟨out, ?_⟩
    rw [hex, Option.some_bind, hout, Option.map_some']

/-- C5 witness: the theorem applied to a 2-landmark session over a (10,10,10)
volume with the aorta script's parameters (height 120, 350 samples,
gamma 0.75). -/
theorem c5_witness :
    ((⟨[⟨0, 0, 0⟩, ⟨1, 0, 0⟩], 0.3, ⟨10, 10, 10, fun _ _ _ => 5⟩, 120, 350⟩ :
        Session).points.length < 2 →
      generate_mpr endpointFit 0.75
        ⟨[⟨0, 0, 0⟩, ⟨1, 0, 0⟩], 0.3, ⟨10, 10, 10, fun _ _ _ => 5⟩, 120, 350⟩ =
        some (⟨[⟨0, 0, 0⟩, ⟨1, 0, 0⟩], 0.3, ⟨10, 10, 10, fun _ _ _ => 5⟩, 120, 350⟩,
          MPROutcome.refused)) ∧
    (2 ≤ (⟨[⟨0, 0, 0⟩, ⟨1, 0, 0⟩], 0.3, ⟨10, 10, 10, fun _ _ _ => 5⟩, 120, 350⟩ :
        Session).points.length →
      ∃ img, generate_mpr endpointFit 0.75
        ⟨[⟨0, 0, 0⟩, ⟨1, 0, 0⟩], 0.3, ⟨10, 10, 10, fun _ _ _ => 5⟩, 120, 350⟩ =
        some (⟨[⟨0, 0, 0⟩, ⟨1, 0, 0⟩], 0.3, ⟨10, 10, 10, fun _ _ _ => 5⟩, 120, 350⟩,
          MPROutcome.image img)) :=
  c5_reconstruction_gate endpointFit 0.75
    ⟨[⟨0, 0, 0⟩, ⟨1, 0, 0⟩], 0.3, ⟨10, 10, 10, fun _ _ _ => 5⟩, 120, 350⟩
    (by norm_num) (by norm_num)

/-- Perpendicular distance from the point `q` to the line through `start` and
`end_`: the norm of the component of `q - start` orthogonal to the segment
direction. -/
def perpDist (start end_ q : Vec3) : ℝ :=
  ((q - start) - (Vec3.dot (q - start) (end_ - start) /
      Vec3.dot (end_ - start) (end_ - start)) • (end_ - start)).norm

/-- Maximum perpendicular distance from the straight segment to the sampled
curve (0 for an empty sample list). -/
def maxPerpDist (start end_ : Vec3) (curve : List Vec3) : ℝ :=
  (curve.map (perpDist start end_)).foldr max 0

/-- Modelled from the spec: the spec's uniform-parameter interpolating spline
(scipy `splprep`/`splev` with `s=0`, not code of this repository) solves a
linear system in the data, so its evaluation is linear in the control points
with parameter-dependent cardinal weights; because an interpolating spline
reproduces constant data, those weights sum to 1 at every parameter — they
are affine weights, and (unlike a B-spline's own basis on its de Boor
coefficients) they may be negative.  `basisFit B` is the oracle whose
evaluator applies the weights `B u` to a 5-point control polygon (the 2-point
bulge branch always passes 5 control points); interpolation itself is not
needed for the monotonicity argument, only this affine form, which the
interpolating spline satisfies. -/
def basisFit (B : ℝ → Fin 5 → ℝ) : SplineFit :=
  ⟨fun cps => some fun u =>
    B u 0 • cps.getD 0 0 + B u 1 • cps.getD 1 0 + B u 2 • cps.getD 2 0 +
    B u 3 • cps.getD 3 0 + B u 4 • cps.getD 4 0⟩

theorem dot_add_left (a b c : Vec3) :
    Vec3.dot (a + b) c = Vec3.dot a c + Vec3.dot b c := by
  simp only [Vec3.dot, Vec3.add_def]
  ring

theorem dot_smul_left (r : ℝ) (a b : Vec3) :
    Vec3.dot (r • a) b = r * Vec3.dot a b := by
  simp only [Vec3.dot, Vec3.smul_def]
  ring

theorem dot_perpRaw_right (d : Vec3) : Vec3.dot (perpRaw d) d = 0 := by
  unfold perpRaw
  split <;> simp [Vec3.dot] <;> ring

theorem dot_self_pos (v : Vec3) (hv : v ≠ ⟨0, 0, 0⟩) : 0 < Vec3.dot v v := by
  have h : 0 ≤ Vec3.dot v v := by
    unfold Vec3.dot
    nlinarith [sq_nonneg v.x, sq_nonneg v.y, sq_nonneg v.z]
  rcases eq_or_lt_of_le h with heq | hlt
  · exfalso
    apply hv
    unfold Vec3.dot at heq
    have hx : v.x = 0 := mul_self_eq_zero.mp (le_antisymm
      (by nlinarith [mul_self_nonneg v.y, mul_self_nonneg v.z]) (mul_self_nonneg v.x))
    have hy : v.y = 0 := mul_self_eq_zero.mp (le_antisymm
      (by nlinarith [mul_self_nonneg v.x, mul_self_nonneg v.z]) (mul_self_nonneg v.y))
    have hz : v.z = 0 := mul_self_eq_zero.mp (le_antisymm
      (by nlinarith [mul_self_nonneg v.x, mul_self_nonneg v.y]) (mul_self_nonneg v.z))
    exact Vec3.ext' hx hy hz
  · exact hlt

theorem norm_pos_of_ne (v : Vec3) (hv : v ≠ ⟨0, 0, 0⟩) : 0 < v.norm :=
  lt_of_le_of_ne (Vec3.norm_nonneg v)
    (fun h => hv ((Vec3.norm_eq_zero_iff v).mp h.symm))

theorem perpRaw_ne_zero (d : Vec3) (hd : d ≠ ⟨0, 0, 0⟩) :
    perpRaw d ≠ ⟨0, 0, 0⟩ := by
  unfold perpRaw
  split
  · rename_i h
    intro hcontra
    have hx : d.x = 0 := by
      have := congrArg Vec3.y hcontra
      simpa using this
    rw [hx] at h
    simp only [abs_zero] at h
    linarith [abs_nonneg d.z]
  · rename_i h
    intro hcontra
    have hz : d.z = 0 := by
      have := congrArg Vec3.y hcontra
      simpa [neg_eq_zero] using this
    have hy : d.y = 0 := by
      have := congrArg Vec3.z hcontra
      simpa using this
    push_neg at h
    rw [hz] at h
    simp only [abs_zero] at h
    have hx : d.x = 0 := abs_nonpos_iff.mp h
    exact hd (Vec3.ext' hx hy hz)

theorem foldr_max_smul (a : ℝ) (ha : 0 ≤ a) (g : ℕ → ℝ) : ∀ l : List ℕ,
    ((l.map fun k => a * g k).foldr max 0) = a * ((l.map g).foldr max 0) := by
  intro l
  induction l with
  | nil => simp
  | cons k ks ih =>
    simp only [List.map_cons, List.foldr_cons, ih]
    rw [mul_max_of_nonneg _ _ ha]

theorem le_foldr_max (l : List ℝ) (x : ℝ) (hx : x ∈ l) : x ≤ l.foldr max 0 := by
  induction l with
  | nil => simp at hx
  | cons y ys ih =>
    rcases List.mem_cons.mp hx with rfl | h2
    · exact le_max_left _ _
    · exact le_trans (ih h2) (le_max_right _ _)

/-- A basis-weighted combination of the five 2-point bulge control points,
written relative to `start`: an on-segment part plus a lateral part that is
linear in the curvature. -/
theorem basis_sample_decomp (start end_ : Vec3) (c u : ℝ) (B : ℝ → Fin 5 → ℝ)
    (hsum : B u 0 + B u 1 + B u 2 + B u 3 + B u 4 = 1) :
    (B u 0 • (control_points start end_ c).getD 0 0 +
     B u 1 • (control_points start end_ c).getD 1 0 +
     B u 2 • (control_points start end_ c).getD 2 0 +
     B u 3 • (control_points start end_ c).getD 3 0 +
     B u 4 • (control_points start end_ c).getD 4 0) - start =
    (0.25 * B u 1 + 0.5 * B u 2 + 0.75 * B u 3 + B u 4) • (end_ - start) +
    (c * ((end_ - start).norm * (0.5 * B u 1 + B u 2 + 0.5 * B u 3))) •
      normEps (perpRaw (end_ - start)) := by
  simp only [control_points, List.getD_cons_zero, List.getD_cons_succ,
    Vec3.smul_def, Vec3.add_def, Vec3.sub_def]
  refine Vec3.ext' ?_ ?_ ?_ <;> dsimp only
  · linear_combination start.x * hsum
  · linear_combination start.y * hsum
  · linear_combination start.z * hsum

/-- The perpendicular distance of a point whose offset from `start` decomposes
into an on-segment part and a (signed) multiple of the normalized bulge
perpendicular. -/
theorem perpDist_of_decomp (start end_ q : Vec3) (T ψ : ℝ)
    (hdd : Vec3.dot (end_ - start) (end_ - start) ≠ 0)
    (hq : q - start = T • (end_ - start) + ψ • normEps (perpRaw (end_ - start))) :
    perpDist start end_ q = |ψ| * (normEps (perpRaw (end_ - start))).norm := by
  unfold perpDist
  rw [hq]
  have hperp : Vec3.dot (normEps (perpRaw (end_ - start))) (end_ - start) = 0 := by
    rw [normEps, dot_smul_left, dot_perpRaw_right, mul_zero]
  have hdot : Vec3.dot (T • (end_ - start) + ψ • normEps (perpRaw (end_ - start)))
      (end_ - start) = T * Vec3.dot (end_ - start) (end_ - start) := by
    rw [dot_add_left, dot_smul_left, dot_smul_left, hperp, mul_zero, add_zero]
  rw [hdot, mul_div_assoc, div_self hdd, mul_one]
  have hvec : (T • (end_ - start) + ψ • normEps (perpRaw (end_ - start))) -
      T • (end_ - start) = ψ • normEps (perpRaw (end_ - start)) := by
    refine Vec3.ext' ?_ ?_ ?_ <;> simp <;> ring
  rw [hvec, Vec3.norm_smul]

/-- `create_curve` on two landmarks with a basis-form evaluator: each sample
is the basis-weighted combination of the five bulge control points. -/
theorem create_curve_basis (B : ℝ → Fin 5 → ℝ) (start end_ : Vec3) (c : ℝ)
    (samples : ℕ) :
    create_curve (basisFit B) [start, end_] c samples =
    (List.range samples).map fun k =>
      B (linspace 0 1 samples k) 0 • (control_points start end_ c).getD 0 0 +
      B (linspace 0 1 samples k) 1 • (control_points start end_ c).getD 1 0 +
      B (linspace 0 1 samples k) 2 • (control_points start end_ c).getD 2 0 +
      B (linspace 0 1 samples k) 3 • (control_points start end_ c).getD 3 0 +
      B (linspace 0 1 samples k) 4 • (control_points start end_ c).getD 4 0 := by
  rw [create_curve]
  norm_num [basisFit]

/-- C8 counterexample: the claim quantifies over every fixed sample count, but
at sample count 2 the samples sit at parameters 0 and 1 — under the spec's
interpolating spline those are exactly the two landmarks, both on the
segment — so the maximum perpendicular distance is 0 for every curvature and
is not strictly increasing. -/
theorem c8_counterexample :
    maxPerpDist ⟨0, 0, 0⟩ ⟨1, 0, 0⟩
      (create_curve endpointFit [⟨0, 0, 0⟩, ⟨1, 0, 0⟩] 0 2) = 0 ∧
    maxPerpDist ⟨0, 0, 0⟩ ⟨1, 0, 0⟩
      (create_curve endpointFit [⟨0, 0, 0⟩, ⟨1, 0, 0⟩] 1 2) = 0 ∧
    ¬(maxPerpDist ⟨0, 0, 0⟩ ⟨1, 0, 0⟩
        (create_curve endpointFit [⟨0, 0, 0⟩, ⟨1, 0, 0⟩] 0 2) <
      maxPerpDist ⟨0, 0, 0⟩ ⟨1, 0, 0⟩
        (create_curve endpointFit [⟨0, 0, 0⟩, ⟨1, 0, 0⟩] 1 2)) := by
  have hcurve : ∀ c : ℝ, create_curve endpointFit [(⟨0, 0, 0⟩ : Vec3), ⟨1, 0, 0⟩] c 2 =
      [⟨0, 0, 0⟩, ⟨1, 0, 0⟩] := by
    intro c
    rw [create_curve_endpointFit_eval]
    have hl0 : linspace 0 1 2 0 = 0 := by norm_num [linspace]
    have hl1 : linspace 0 1 2 1 = 1 := by norm_num [linspace]
    rw [show List.range 2 = [0, 1] from rfl, List.map_cons, List.map_cons,
      List.map_nil, hl0, hl1, if_neg (by norm_num : ¬(0 : ℝ) = 1), if_pos rfl]
  have hpd1 : perpDist ⟨0, 0, 0⟩ ⟨1, 0, 0⟩ ⟨0, 0, 0⟩ = 0 := by
    unfold perpDist
    norm_num [Vec3.dot, Vec3.sub_def, Vec3.smul_def, Vec3.norm, Real.sqrt_zero]
  have hpd2 : perpDist ⟨0, 0, 0⟩ ⟨1, 0, 0⟩ ⟨1, 0, 0⟩ = 0 := by
    unfold perpDist
    norm_num [Vec3.dot, Vec3.sub_def, Vec3.smul_def, Vec3.norm, Real.sqrt_zero]
  have hmax : maxPerpDist ⟨0, 0, 0⟩ ⟨1, 0, 0⟩ [⟨0, 0, 0⟩, ⟨1, 0, 0⟩] = 0 := by
    unfold maxPerpDist
    rw [List.map_cons, List.map_cons, List.map_nil, hpd1, hpd2]
    norm_num
  refine ⟨?_, ?_, ?_⟩
  · rw [hcurve 0, hmax]
  · rw [hcurve 1, hmax]
  · rw [hcurve 0, hcurve 1, hmax]
    exact lt_irrefl 0

/-- C8 (amended): for every fixed pair of distinct points and fixed sample
count, with the spline evaluator in affine basis form (uniform-parameter
weights summing to 1 at every parameter — the form an exactly-interpolating
spline has, its cardinal weights possibly negative), the maximum perpendicular
distance from the straight segment to the generated curve is strictly
increasing in the curvature over [0,1] provided at least one sample carries a
nonzero net lateral weight (0.5·B₁ + B₂ + 0.5·B₃ ≠ 0); this excludes
degenerate samplings such as sample count 2, whose two samples are the
landmarks themselves and whose maximum distance is 0 for every curvature. -/
theorem c8_curvature_monotonicity (start end_ : Vec3) (hne : start ≠ end_)
    (B : ℝ → Fin 5 → ℝ) (samples : ℕ)
    (hBsum : ∀ u, B u 0 + B u 1 + B u 2 + B u 3 + B u 4 = 1)
    (hInt : ∃ k, k < samples ∧ 0.5 * B (linspace 0 1 samples k) 1 +
      B (linspace 0 1 samples k) 2 + 0.5 * B (linspace 0 1 samples k) 3 ≠ 0)
    (c1 c2 : ℝ) (hc1 : 0 ≤ c1) (hlt : c1 < c2) (hc2 : c2 ≤ 1) :
    maxPerpDist start end_ (create_curve (basisFit B) [start, end_] c1 samples) <
    maxPerpDist start end_ (create_curve (basisFit B) [start, end_] c2 samples) := by
  have hd0 : end_ - start ≠ ⟨0, 0, 0⟩ := by
    intro h
    apply hne
    have hx : end_.x - start.x = 0 := congrArg Vec3.x h
    have hy : end_.y - start.y = 0 := congrArg Vec3.y h
    have hz : end_.z - start.z = 0 := congrArg Vec3.z h
    exact Vec3.ext' (by linarith) (by linarith) (by linarith)
  have hdd : Vec3.dot (end_ - start) (end_ - start) ≠ 0 :=
    ne_of_gt (dot_self_pos _ hd0)
  have hn_pos : 0 < (end_ - start).norm := norm_pos_of_ne _ hd0
  have hsp_pos : 0 < (normEps (perpRaw (end_ - start))).norm := by
    rw [norm_normEps]
    exact div_pos (norm_pos_of_ne _ (perpRaw_ne_zero _ hd0))
      (by linarith [eps_pos, Vec3.norm_nonneg (perpRaw (end_ - start))])
  set g : ℕ → ℝ := fun k =>
    ((end_ - start).norm * |0.5 * B (linspace 0 1 samples k) 1 +
      B (linspace 0 1 samples k) 2 + 0.5 * B (linspace 0 1 samples k) 3|) *
    (normEps (perpRaw (end_ - start))).norm with hg
  have hdist : ∀ c : ℝ, 0 ≤ c →
      maxPerpDist start end_ (create_curve (basisFit B) [start, end_] c samples) =
      c * (((List.range samples).map g).foldr max 0) := by
    intro c hc
    rw [create_curve_basis, maxPerpDist, List.map_map]
    rw [show (List.map (perpDist start end_ ∘ fun k =>
        B (linspace 0 1 samples k) 0 • (control_points start end_ c).getD 0 0 +
        B (linspace 0 1 samples k) 1 • (control_points start end_ c).getD 1 0 +
        B (linspace 0 1 samples k) 2 • (control_points start end_ c).getD 2 0 +
        B (linspace 0 1 samples k) 3 • (control_points start end_ c).getD 3 0 +
        B (linspace 0 1 samples k) 4 • (control_points start end_ c).getD 4 0)
        (List.range samples)) =
        (List.range samples).map fun k => c * g k from ?_]
    · exact foldr_max_smul c hc g (List.range samples)
    · apply List.map_congr_left
      intro k _
      have hdec := basis_sample_decomp start end_ c (linspace 0 1 samples k) B
        (hBsum (linspace 0 1 samples k))
      have hpd := perpDist_of_decomp start end_ _ _ _ hdd hdec
      simp only [Function.comp_apply]
      rw [hpd, hg, abs_mul, abs_of_nonneg hc, abs_mul, abs_of_nonneg hn_pos.le]
      ring
  rw [hdist c1 hc1, hdist c2 (le_trans hc1 hlt.le)]
  have hM_pos : 0 < ((List.range samples).map g).foldr max 0 := by
    obtain ⟨k0, hk0, hne0⟩ := hInt
    have hg0 : 0 < g k0 := by
      rw [hg]
      exact mul_pos (mul_pos hn_pos (abs_pos.mpr hne0)) hsp_pos
    exact lt_of_lt_of_le hg0 (le_foldr_max _ _
      (List.mem_map.mpr ⟨k0, List.mem_range.mpr hk0, rfl⟩))
  exact mul_lt_mul_of_pos_right hlt hM_pos

/-- C8 witness: the amended theorem applied to start = (0,0,0),
end = (1,0,0), one sample carrying full weight on the middle control point,
and curvatures 0 < 1. -/
theorem c8_witness :
    maxPerpDist ⟨0, 0, 0⟩ ⟨1, 0, 0⟩
      (create_curve (basisFit fun _ i => if i = 2 then 1 else 0)
        [⟨0, 0, 0⟩, ⟨1, 0, 0⟩] 0 1) <
    maxPerpDist ⟨0, 0, 0⟩ ⟨1, 0, 0⟩
      (create_curve (basisFit fun _ i => if i = 2 then 1 else 0)
        [⟨0, 0, 0⟩, ⟨1, 0, 0⟩] 1 1) :=
  c8_curvature_monotonicity ⟨0, 0, 0⟩ ⟨1, 0, 0⟩
    (by intro h; have := congrArg Vec3.x h; norm_num at this)
    (fun _ i => if i = 2 then 1 else 0) 1
    (by
      intro u
      dsimp only
      rw [if_neg (by decide : ¬((0 : Fin 5) = 2)), if_neg (by decide : ¬((1 : Fin 5) = 2)),
        if_pos rfl, if_neg (by decide : ¬((3 : Fin 5) = 2)),
        if_neg (by decide : ¬((4 : Fin 5) = 2))]
      norm_num)
    ⟨0, by norm_num, by
      dsimp only
      rw [if_neg (by decide : ¬((1 : Fin 5) = 2)), if_pos rfl,
        if_neg (by decide : ¬((3 : Fin 5) = 2))]
      norm_num⟩
    0 1 (by norm_num) (by norm_num) (by norm_num)

end

end CurvedMPR
